import Mathlib

/-
Shallow embedding of the variants! rewrite-rule engine from src/src/lib.rs.

The source is a single macro_rules! definition. For one expansion request
  variants!( #[dollar($)] #[variant(sub, ...)] ... macro m(param, ...) { code } )
the first matcher (lib.rs lines 181 to 231) peels off the leading #[variant]
attribute, emits a fresh macro_rules! m whose rules implement the select
construct for that variant (lines 189 to 222), emits one copy of the template
via the invocation m!{@[$]expand sub ...} (line 223), and recurses on the
remaining #[variant] attributes (lines 225 to 230).  The second matcher
(lines 232 to 236) accepts a request with zero #[variant] attributes and
expands to nothing.

Tokens are modelled as trees: plain tokens, groups with a delimiter,
placeholder references ($name, written Tk.param), and select invocations
(m!{ labels : { code }, ... }, written Tk.select with the clause list in the
braced normal form; the brace-free single clause shorthand of rule 211 is
rewritten by the source itself into this form).  A substitution value matched
by $sub:tt or a label matched by $sv:tt is a single token tree.
-/

namespace Variants

/-- Delimiter of a Rust token group. -/
inductive Delim where
  | paren
  | bracket
  | brace
deriving DecidableEq

/-- Token trees of the embedding.  Tk.param p stands for the metavariable
reference $p inside the template; Tk.select stands for an invocation of the
generated macro in expansion position, carrying its clause list as pairs of a
label list (the tts joined by |) and a code block (the braced tts). -/
inductive Tk where
  | tok : String → Tk
  | param : String → Tk
  | group : Delim → List Tk → Tk
  | select : List (List Tk × List Tk) → Tk

mutual

/-- Structural equality of token trees: the comparison a macro_rules matcher
performs when a literal token from a #[variant] list is matched against an
input token tree. -/
def tkBeq : Tk → Tk → Bool
  | .tok a, .tok b => a == b
  | .param a, .param b => a == b
  | .group d a, .group e b => d == e && tkListBeq a b
  | .select a, .select b => clsBeq a b
  | _, _ => false

def tkListBeq : List Tk → List Tk → Bool
  | [], [] => true
  | a :: as, b :: bs => tkBeq a b && tkListBeq as bs
  | _, _ => false

def clsBeq : List (List Tk × List Tk) → List (List Tk × List Tk) → Bool
  | [], [] => true
  | (l1, c1) :: r1, (l2, c2) :: r2 => tkListBeq l1 l2 && tkListBeq c1 c2 && clsBeq r1 r2
  | _, _ => false

end

theorem tkBeq_iff : ∀ a b : Tk, tkBeq a b = true ↔ a = b := by
  have h := tkBeq.induct
    (fun a b => tkBeq a b = true ↔ a = b)
    (fun x y => clsBeq x y = true ↔ x = y)
    (fun x y => tkListBeq x y = true ↔ x = y)
  apply h
  · intro a b
    simp [tkBeq]
  · intro a b
    simp [tkBeq]
  · intro d a e b ih
    simp [tkBeq, ih]
  · intro a b ih
    simp [tkBeq, ih]
  · intro t x h1 h2 h3 h4
    cases t <;> cases x <;>
      first
        | exact (h1 _ _ rfl rfl).elim
        | exact (h2 _ _ rfl rfl).elim
        | exact (h3 _ _ _ _ rfl rfl).elim
        | exact (h4 _ _ rfl rfl).elim
        | simp [tkBeq]
  · simp [tkListBeq]
  · intro a as b bs ih1 ih2
    simp [tkListBeq, ih1, ih2]
  · intro t x h1 h2
    cases t <;> cases x <;>
      first
        | exact (h1 rfl rfl).elim
        | exact (h2 _ _ _ _ rfl rfl).elim
        | simp [tkListBeq]
  · simp [clsBeq]
  · intro l1 c1 r1 l2 c2 r2 ih1 ih2 ih3
    simp [clsBeq, ih1, ih2, ih3]
  · intro t x h1 h2
    cases t <;> cases x <;>
      first
        | exact (h1 rfl rfl).elim
        | (rename_i p r q s; rcases p with ⟨l1, c1⟩; rcases q with ⟨l2, c2⟩;
            exact (h2 l1 c1 r l2 c2 s rfl rfl).elim)
        | simp [clsBeq]

instance : BEq Tk := ⟨tkBeq⟩

instance : LawfulBEq Tk where
  eq_of_beq h := (tkBeq_iff _ _).mp h
  rfl := (tkBeq_iff _ _).mpr rfl

instance : DecidableEq Tk := fun a b =>
  decidable_of_iff (tkBeq a b = true) (tkBeq_iff a b)

/-- Lookup of a placeholder in a binding, first match wins.  The params of a
request are pairwise used as metavariable names; a binding pairs each name
with the token tree it captured. -/
def lookupB (b : List (String × Tk)) (p : String) : Option Tk :=
  match b with
  | [] => none
  | (q, v) :: rest => if q = p then some v else lookupB rest p

mutual

/-- Metavariable substitution, the transcription step of the @expand rules
(lib.rs lines 219 and 221): the template tokens are emitted verbatim except
that every reference $p to a bound placeholder is replaced by the single
token tree captured for p.  Substitution reaches into groups and into the
label and code tokens of select invocations, exactly as macro_rules
transcription substitutes metavariables everywhere in the emitted tokens. -/
def substTk (b : List (String × Tk)) : Tk → Tk
  | .tok s => .tok s
  | .param p =>
      match lookupB b p with
      | some v => v
      | none => .param p
  | .group d ts => .group d (substList b ts)
  | .select cls => .select (substCls b cls)

def substList (b : List (String × Tk)) : List Tk → List Tk
  | [] => []
  | t :: ts => substTk b t :: substList b ts

def substCls (b : List (String × Tk)) : List (List Tk × List Tk) → List (List Tk × List Tk)
  | [] => []
  | (ls, c) :: rest => (substList b ls, substList b c) :: substCls b rest

end

/-- Termination measure for the select rules: total number of remaining
label tokens plus one per remaining clause. -/
def clsWeight : List (List Tk × List Tk) → Nat
  | [] => 0
  | (ls, _) :: rest => ls.length + 1 + clsWeight rest

/-- One select invocation resolved against the label set subs of the variant
being expanded, following the generated rules in order (lib.rs):
lines 191 to 194, one rule per sub: if the first label of the first clause is
one of the subs, the result is that clause code;
lines 196 to 199: if the first label is the wildcard underscore token, the
result is that clause code;
lines 201 to 204: a first clause with a single label that did not match is
dropped whole and matching restarts on the remaining clauses;
lines 206 to 209: in a first clause with several labels, a first label that
did not match is dropped and matching restarts with the shortened clause;
line 215: an exhausted clause list expands to nothing.
A clause with an empty label list cannot be produced by the macro grammar
(labels are matched by a one-or-more repetition); no generated rule matches
it, so the model maps that unreachable shape to the empty result. -/
def selStep (subs : List Tk) : List (List Tk × List Tk) → List Tk
  | [] => []
  | ([], _) :: _ => []
  | (l :: ls, code) :: rest =>
      if subs.contains l || l == Tk.tok "_" then code
      else
        match ls with
        | [] => selStep subs rest
        | l2 :: ls2 => selStep subs ((l2 :: ls2, code) :: rest)
  termination_by cls => clsWeight cls
  decreasing_by
    all_goals (simp [clsWeight]; try omega)

theorem selStep_le_sizeOf (subs : List Tk) :
    ∀ cls, sizeOf (selStep subs cls) ≤ sizeOf cls := by
  apply selStep.induct subs (fun cls => sizeOf (selStep subs cls) ≤ sizeOf cls)
  · simp [selStep]
  · intro snd tail
    simp [selStep]
    omega
  · intro l ls code rest h
    cases ls with
    | nil =>
        rw [selStep.eq_3, if_pos h]
        simp
        omega
    | cons l2 ls2 =>
        rw [selStep.eq_4, if_pos h]
        simp
        omega
  · intro l code rest h ih
    rw [selStep.eq_3, if_neg h]
    simp at ih ⊢
    omega
  · intro l code rest h l2 ls2 ih
    rw [selStep.eq_4, if_neg h]
    simp at ih ⊢
    omega

mutual

/-- Resolution of the select invocations inside one expanded copy.  After the
@expand rule emits the substituted template, the host compiler expands every
invocation of the generated macro that occurs in the emitted tokens, each
against the rule set generated for the variant of this copy; the tokens of a
chosen clause are emitted in place of the invocation and are themselves
expanded further.  Plain tokens and leftover metavariable references pass
through unchanged, groups are resolved inside. -/
def resolveTk (subs : List Tk) : Tk → List Tk
  | .tok s => [.tok s]
  | .param p => [.param p]
  | .group d ts => [.group d (resolveList subs ts)]
  | .select cls => resolveList subs (selStep subs cls)
  termination_by t => sizeOf t
  decreasing_by
    · simp
    · have h := selStep_le_sizeOf subs cls
      simp
      omega

def resolveList (subs : List Tk) : List Tk → List Tk
  | [] => []
  | t :: ts => resolveTk subs t ++ resolveList subs ts
  termination_by ts => sizeOf ts
  decreasing_by
    · simp
      omega
    · simp

end

mutual

/-- Test that a token tree contains no select invocation. -/
def selFreeTk : Tk → Bool
  | .tok _ => true
  | .param _ => true
  | .group _ ts => selFreeList ts
  | .select _ => false

def selFreeList : List Tk → Bool
  | [] => true
  | t :: ts => selFreeTk t && selFreeList ts

end

mutual

/-- Well-formedness of a template against the declared placeholder names:
every metavariable reference $p must name a declared placeholder, otherwise
the emitted macro_rules definition is rejected by the host compiler, and
every select clause must carry at least one label, as the macro grammar
demands. -/
def wfTk (params : List String) : Tk → Bool
  | .tok _ => true
  | .param p => params.contains p
  | .group _ ts => wfList params ts
  | .select cls => wfCls params cls

def wfList (params : List String) : List Tk → Bool
  | [] => true
  | t :: ts => wfTk params t && wfList params ts

def wfCls (params : List String) : List (List Tk × List Tk) → Bool
  | [] => true
  | ([], _) :: _ => false
  | (l :: ls, c) :: rest =>
      wfList params (l :: ls) && wfList params c && wfCls params rest

end

/-- Expansion of one template copy for one variant whose value list is subs:
the @expand rule binds the declared placeholders in order to the leading
values (params.zip subs; the trailing one-or-more repetition of dont-care
tts at lib.rs line 219 swallows any surplus values), transcribes the
template under that binding, and the select invocations of the emitted copy
are then resolved against the full value list of the variant, since rule
generation at line 191 creates one matcher per declared value. -/
def expandCore (params : List String) (tmpl : List Tk) (subs : List Tk) : List Tk :=
  resolveList subs (substList (params.zip subs) tmpl)

/-- Request level failures.  An arity failure carries the value list of the
deficient variant: in the source it surfaces as the host compiler error
"unexpected end of macro invocation" at the @expand call of that variant
(see the compile_fail doctest at lib.rs lines 26 to 44).  A badTemplate
failure models the host compiler rejecting the emitted macro_rules
definition itself (an unbound metavariable in the template, or a select
clause shape no generated rule can match). -/
inductive VErr where
  | arity : List Tk → VErr
  | badTemplate : VErr
deriving DecidableEq

instance {e a : Type} [DecidableEq e] [DecidableEq a] : DecidableEq (Except e a) := fun x y =>
  match x, y with
  | .error u, .error v => decidable_of_iff (u = v) (by simp)
  | .ok u, .ok v => decidable_of_iff (u = v) (by simp)
  | .error _, .ok _ => isFalse (by simp)
  | .ok _, .error _ => isFalse (by simp)

/-- Expansion of one variant: the @expand matcher requires one token tree per
declared placeholder, so a variant supplying fewer values than there are
placeholders makes no rule match and the compilation of the request fails;
otherwise the copy of expandCore is produced. -/
def expandVariant (params : List String) (tmpl : List Tk) (subs : List Tk) :
    Except VErr (List Tk) :=
  if subs.length < params.length then .error (.arity subs)
  else .ok (expandCore params tmpl subs)

/-- Whole request: the recursion of the first variants! matcher processes the
variant list front to back, emitting one expanded copy per variant, and the
second matcher (lib.rs lines 232 to 236) turns the empty variant list into
the empty expansion.  A compile-time failure anywhere aborts the whole
request: the host program is never built from a partial expansion, which the
Except error models.  The well-formedness of the template is checked while
at least one variant is processed, because only then is the macro_rules
definition containing the template emitted at all. -/
def variantsRun (params : List String) (vars : List (List Tk)) (tmpl : List Tk) :
    Except VErr (List Tk) :=
  match vars with
  | [] => .ok []
  | v :: vs =>
      if wfList params tmpl then
        match expandVariant params tmpl v with
        | .error e => .error e
        | .ok copy =>
            match variantsRun params vs tmpl with
            | .error e => .error e
            | .ok rest => .ok (copy ++ rest)
      else .error .badTemplate


theorem selStep_cons (subs : List Tk) (l : Tk) (ls code : List Tk)
    (rest : List (List Tk × List Tk)) :
    selStep subs ((l :: ls, code) :: rest) =
      if (l :: ls).any (fun x => subs.contains x || x == Tk.tok "_") then code
      else selStep subs rest := by
  induction ls generalizing l with
  | nil =>
      rw [selStep.eq_3]
      simp
  | cons l2 ls2 ih =>
      rw [selStep.eq_4]
      by_cases h : (subs.contains l || l == Tk.tok "_") = true
      · rw [if_pos h]
        simp at h
        simp [h]
      · rw [if_neg h, ih l2]
        simp at h
        simp [h]


theorem resolveList_selFree (subs : List Tk) :
    ∀ ts, selFreeList ts = true → resolveList subs ts = ts := by
  apply resolveList.induct subs
    (fun t => selFreeTk t = true → resolveTk subs t = [t])
    (fun ts => selFreeList ts = true → resolveList subs ts = ts)
  · intro s _
    simp [resolveTk]
  · intro p _
    simp [resolveTk]
  · intro d ts ih h
    simp [selFreeTk] at h
    simp [resolveTk, ih h]
  · intro cls _ h
    simp [selFreeTk] at h
  · intro _
    simp [resolveList]
  · intro t ts ih1 ih2 h
    simp [selFreeList] at h
    simp [resolveList, ih1 h.1, ih2 h.2]

theorem substList_selFree (b : List (String × Tk))
    (hb : ∀ q v, lookupB b q = some v → selFreeTk v = true) :
    ∀ ts, selFreeList ts = true → selFreeList (substList b ts) = true := by
  apply substList.induct b
    (fun t => selFreeTk t = true → selFreeTk (substTk b t) = true)
    (fun _ => True)
    (fun ts => selFreeList ts = true → selFreeList (substList b ts) = true)
  · intro s _
    simp [substTk, selFreeTk]
  · intro p v hv _
    simp [substTk, hv]
    exact hb p v hv
  · intro p hp _
    simp [substTk, hp, selFreeTk]
  · intro d ts ih h
    simp [selFreeTk] at h
    simp [substTk, selFreeTk, ih h]
  · intro cls _ h
    simp [selFreeTk] at h
  · intro _
    simp [substList, selFreeList]
  · intro t ts ih1 ih2 h
    simp [selFreeList] at h
    simp [substList, selFreeList, ih1 h.1, ih2 h.2]
  · trivial
  · intro ls c rest _ _ _
    trivial

theorem lookupB_zip_mem (params : List String) :
    ∀ (subs : List Tk) (q : String) (v : Tk),
      lookupB (params.zip subs) q = some v → v ∈ subs := by
  induction params with
  | nil =>
      intro subs q v h
      simp [lookupB] at h
  | cons p ps ih =>
      intro subs q v h
      cases subs with
      | nil => simp [lookupB] at h
      | cons s ss =>
          simp [List.zip_cons_cons, lookupB] at h
          by_cases hpq : p = q
          · rw [if_pos hpq] at h
            simp at h
            simp [h]
          · rw [if_neg hpq] at h
            exact List.mem_cons_of_mem s (ih ss q v h)

theorem zip_take_self (params : List String) :
    ∀ subs : List Tk, params.zip subs = params.zip (subs.take params.length) := by
  induction params with
  | nil => intro subs; simp
  | cons p ps ih =>
      intro subs
      cases subs with
      | nil => simp
      | cons s ss => simp [List.zip_cons_cons, ih ss]


/-- Evaluation of the concrete scenario of the crate documentation: one
placeholder name, two variants fn_ref and fn_mut, a template declaring a
function whose parameter type and body are chosen per variant by two select
invocations.  The request expands to the two expected copies. -/
theorem doc_scenario_two_variants :
    variantsRun ["name"]
      [[Tk.tok "fn_ref"], [Tk.tok "fn_mut"]]
      [Tk.tok "fn", Tk.param "name",
        Tk.group Delim.paren [Tk.tok "x", Tk.tok ":",
          Tk.select [([Tk.tok "fn_ref"], [Tk.tok "&", Tk.tok "T"]),
                     ([Tk.tok "fn_mut"], [Tk.tok "&", Tk.tok "mut", Tk.tok "T"])]],
        Tk.group Delim.brace [Tk.select [([Tk.tok "fn_mut"],
          [Tk.tok "*", Tk.tok "x", Tk.tok "+=", Tk.tok "1", Tk.tok ";"])]]] =
      Except.ok
        [Tk.tok "fn", Tk.tok "fn_ref",
          Tk.group Delim.paren [Tk.tok "x", Tk.tok ":", Tk.tok "&", Tk.tok "T"],
          Tk.group Delim.brace [],
          Tk.tok "fn", Tk.tok "fn_mut",
          Tk.group Delim.paren [Tk.tok "x", Tk.tok ":", Tk.tok "&", Tk.tok "mut", Tk.tok "T"],
          Tk.group Delim.brace [Tk.tok "*", Tk.tok "x", Tk.tok "+=", Tk.tok "1", Tk.tok ";"]] := by
  simp [variantsRun, expandVariant, expandCore, substList, substTk, substCls, lookupB,
    resolveList, resolveTk, selStep, wfList, wfTk, wfCls, List.contains, tkBeq, tkListBeq, clsBeq]

/-- C1: the source documentation (lib.rs lines 66 to 70) promises a compile
time error when a select clause references a label that no variant declares
and that is not the wildcard; the generated rules cannot do that, because the
rule set of a variant only knows the values of that variant, so an
undeclared label is dropped exactly like a label of another variant and the
request succeeds, expanding the invocation to nothing. -/
theorem unknown_label_silently_empty :
    variantsRun ["p"] [[Tk.tok "a"]]
      [Tk.select [([Tk.tok "zzz"], [Tk.tok "X"])]] = Except.ok [] := by
  simp [variantsRun, expandVariant, expandCore, substList, substTk, substCls, lookupB,
    resolveList, resolveTk, selStep, wfList, wfTk, wfCls, List.contains, tkBeq, tkListBeq, clsBeq]

/-- C2: a request in which some variant supplies fewer values than there are
placeholders fails with an arity error naming a deficient variant, and the
request as a whole produces no output. -/
theorem arity_error_all_or_nothing (params : List String) (vars : List (List Tk))
    (tmpl : List Tk) (hwf : wfList params tmpl = true)
    (hdef : ∃ v ∈ vars, v.length < params.length) :
    ∃ w ∈ vars, w.length < params.length ∧
      variantsRun params vars tmpl = Except.error (VErr.arity w) := by
  induction vars with
  | nil => simp at hdef
  | cons v vs ih =>
      by_cases hv : v.length < params.length
      · refine ⟨v, by simp, hv, ?_⟩
        simp [variantsRun, hwf, expandVariant, hv]
      · obtain ⟨w, hw, hlen⟩ := hdef
        rcases List.mem_cons.mp hw with rfl | hw2
        · exact absurd hlen hv
        · obtain ⟨w2, hw2m, hlen2, hrun⟩ := ih ⟨w, hw2, hlen⟩
          refine ⟨w2, List.mem_cons_of_mem _ hw2m, hlen2, ?_⟩
          simp [variantsRun, hwf, expandVariant, hv, hrun]

theorem arity_error_all_or_nothing_witness :
    wfList ["a", "b"] [Tk.param "a"] = true ∧
      (∃ v ∈ [[Tk.tok "c"]], v.length < ["a", "b"].length) ∧
      ∃ w ∈ [[Tk.tok "c"]], w.length < ["a", "b"].length ∧
        variantsRun ["a", "b"] [[Tk.tok "c"]] [Tk.param "a"] =
          Except.error (VErr.arity w) :=
  ⟨by decide, by decide,
    arity_error_all_or_nothing ["a", "b"] [[Tk.tok "c"]] [Tk.param "a"]
      (by decide) (by decide)⟩

/-- C3: a valid request whose template contains no select invocation expands
a variant to exactly the substituted template: every placeholder reference
replaced by the bound value of that variant, every other token unchanged. -/
theorem subst_verbatim_when_no_select (params : List String) (tmpl subs : List Tk)
    (_hwf : wfList params tmpl = true)
    (hfree : selFreeList tmpl = true)
    (hvals : ∀ v ∈ subs, selFreeTk v = true)
    (har : params.length ≤ subs.length) :
    expandVariant params tmpl subs = Except.ok (substList (params.zip subs) tmpl) := by
  have hb : ∀ q v, lookupB (params.zip subs) q = some v → selFreeTk v = true :=
    fun q v h => hvals v (lookupB_zip_mem params subs q v h)
  have h1 : selFreeList (substList (params.zip subs) tmpl) = true :=
    substList_selFree _ hb tmpl hfree
  have h2 := resolveList_selFree subs _ h1
  simp [expandVariant, Nat.not_lt.mpr har, expandCore, h2]

theorem subst_verbatim_when_no_select_witness :
    wfList ["p"] [Tk.tok "fn", Tk.param "p", Tk.group Delim.paren [Tk.param "p"]] = true ∧
      selFreeList [Tk.tok "fn", Tk.param "p", Tk.group Delim.paren [Tk.param "p"]] = true ∧
      (∀ v ∈ [Tk.tok "val"], selFreeTk v = true) ∧
      ["p"].length ≤ [Tk.tok "val"].length ∧
      expandVariant ["p"] [Tk.tok "fn", Tk.param "p", Tk.group Delim.paren [Tk.param "p"]]
          [Tk.tok "val"] =
        Except.ok (substList (["p"].zip [Tk.tok "val"])
          [Tk.tok "fn", Tk.param "p", Tk.group Delim.paren [Tk.param "p"]]) :=
  ⟨by decide, by decide, by decide, by decide,
    subst_verbatim_when_no_select ["p"] _ [Tk.tok "val"]
      (by decide) (by decide) (by decide) (by decide)⟩

/-- C4: a valid request with N declared variants outputs the concatenation of
exactly the N expanded copies, one per variant, in declaration order. -/
theorem output_is_ordered_concat (params : List String) (vars : List (List Tk))
    (tmpl : List Tk) (hwf : wfList params tmpl = true)
    (har : ∀ v ∈ vars, params.length ≤ v.length) :
    variantsRun params vars tmpl =
      Except.ok (List.flatten (vars.map (expandCore params tmpl))) := by
  induction vars with
  | nil => simp [variantsRun]
  | cons v vs ih =>
      have hv := har v (by simp)
      have ihh := ih (fun w hw => har w (List.mem_cons_of_mem _ hw))
      simp [variantsRun, hwf, expandVariant, Nat.not_lt.mpr hv, ihh]

theorem output_is_ordered_concat_witness :
    wfList ["p"] [Tk.param "p"] = true ∧
      (∀ v ∈ [[Tk.tok "x"], [Tk.tok "y"]], ["p"].length ≤ v.length) ∧
      variantsRun ["p"] [[Tk.tok "x"], [Tk.tok "y"]] [Tk.param "p"] =
        Except.ok (List.flatten
          ([[Tk.tok "x"], [Tk.tok "y"]].map (expandCore ["p"] [Tk.param "p"]))) :=
  ⟨by decide, by decide,
    output_is_ordered_concat ["p"] [[Tk.tok "x"], [Tk.tok "y"]] [Tk.param "p"]
      (by decide) (by decide)⟩

/-- C5: with clauses [A: X, A: Y] and the label A active, the selector
returns X; the duplicate later clause is never taken. -/
theorem select_first_match_wins (subs : List Tk) (A : Tk) (X Y : List Tk)
    (h : A ∈ subs) :
    selStep subs [([A], X), ([A], Y)] = X := by
  rw [selStep_cons]
  simp [h]

theorem select_first_match_wins_witness :
    Tk.tok "a" ∈ [Tk.tok "a"] ∧
      selStep [Tk.tok "a"] [([Tk.tok "a"], [Tk.tok "X"]), ([Tk.tok "a"], [Tk.tok "Y"])] =
        [Tk.tok "X"] :=
  ⟨by decide, select_first_match_wins [Tk.tok "a"] (Tk.tok "a") [Tk.tok "X"] [Tk.tok "Y"]
    (by decide)⟩

/-- C6: with clauses [B: X, _: Y] and an active variant whose labels do not
contain the label B, the non-matching first clause is dropped and the
wildcard clause produces Y. -/
theorem select_wildcard_after_no_match (subs : List Tk) (B : Tk) (X Y : List Tk)
    (h1 : B ∉ subs) (h2 : B ≠ Tk.tok "_") :
    selStep subs [([B], X), ([Tk.tok "_"], Y)] = Y := by
  rw [selStep_cons]
  rw [if_neg (by simp; exact ⟨h1, h2⟩)]
  rw [selStep_cons]
  simp

theorem select_wildcard_after_no_match_witness :
    Tk.tok "b" ∉ [Tk.tok "a"] ∧ Tk.tok "b" ≠ Tk.tok "_" ∧
      selStep [Tk.tok "a"] [([Tk.tok "b"], [Tk.tok "X"]), ([Tk.tok "_"], [Tk.tok "Y"])] =
        [Tk.tok "Y"] :=
  ⟨by decide, by decide,
    select_wildcard_after_no_match [Tk.tok "a"] (Tk.tok "b") [Tk.tok "X"] [Tk.tok "Y"]
      (by decide) (by decide)⟩

/-- C7: a clause whose label list does not use the wildcard is taken exactly
when its label list shares at least one member with the value list of the
active variant, so a variant declared with several values is selected by a
clause keyed on any one of them. -/
theorem select_clause_matches_iff_shares_value (subs : List Tk) (l : Tk)
    (ls X : List Tk) (rest : List (List Tk × List Tk))
    (h : Tk.tok "_" ∉ l :: ls) :
    selStep subs ((l :: ls, X) :: rest) =
      if ∃ x ∈ l :: ls, x ∈ subs then X else selStep subs rest := by
  rw [selStep_cons]
  by_cases hx : ∃ x ∈ l :: ls, x ∈ subs
  · obtain ⟨x, hxm, hxs⟩ := hx
    have hany : ((l :: ls).any (fun x => subs.contains x || x == Tk.tok "_")) = true :=
      List.any_eq_true.mpr ⟨x, hxm, by simp [hxs]⟩
    rw [if_pos hany, if_pos ⟨x, hxm, hxs⟩]
  · have hneg : ¬(((l :: ls).any (fun x => subs.contains x || x == Tk.tok "_")) = true) := by
      simp
      constructor
      · refine ⟨fun hm => hx ⟨l, List.mem_cons_self l ls, hm⟩, fun hw => h ?_⟩
        rw [← hw]
        exact List.mem_cons_self l ls
      · intro x hxm
        refine ⟨fun hm => hx ⟨x, List.mem_cons_of_mem l hxm, hm⟩, fun hw => h ?_⟩
        rw [← hw]
        exact List.mem_cons_of_mem l hxm
    rw [if_neg hneg, if_neg hx]

theorem select_clause_matches_iff_shares_value_witness :
    Tk.tok "_" ∉ [Tk.tok "other", Tk.tok "mut"] ∧
      selStep [Tk.tok "fn_mut", Tk.tok "mut"]
          (([Tk.tok "other", Tk.tok "mut"], [Tk.tok "X"]) :: []) =
        if ∃ x ∈ [Tk.tok "other", Tk.tok "mut"], x ∈ [Tk.tok "fn_mut", Tk.tok "mut"]
          then [Tk.tok "X"] else selStep [Tk.tok "fn_mut", Tk.tok "mut"] [] :=
  ⟨by decide,
    select_clause_matches_iff_shares_value [Tk.tok "fn_mut", Tk.tok "mut"]
      (Tk.tok "other") [Tk.tok "mut"] [Tk.tok "X"] [] (by decide)⟩

/-- C8: a select invocation none of whose clause labels occurs among the
active values and none of which is the wildcard resolves to the empty token
sequence; no failure arises and nothing is emitted for that copy. -/
theorem select_no_matching_clause_empty (subs : List Tk)
    (cls : List (List Tk × List Tk))
    (h : ∀ p ∈ cls, ∀ lab ∈ p.1, lab ∉ subs ∧ lab ≠ Tk.tok "_") :
    resolveTk subs (Tk.select cls) = [] := by
  have hsel : selStep subs cls = [] := by
    induction cls with
    | nil => simp [selStep]
    | cons p rest ih =>
        rcases p with ⟨ls, code⟩
        cases ls with
        | nil => rw [selStep.eq_2]
        | cons l ls2 =>
            rw [selStep_cons]
            rw [if_neg (by
              simp
              constructor
              · exact h (l :: ls2, code) (List.mem_cons_self _ _) l (List.mem_cons_self _ _)
              · intro x hxm
                exact h (l :: ls2, code) (List.mem_cons_self _ _) x
                  (List.mem_cons_of_mem _ hxm))]
            exact ih (fun q hq => h q (List.mem_cons_of_mem _ hq))
  simp [resolveTk, hsel, resolveList]

theorem select_no_matching_clause_empty_witness :
    (∀ p ∈ [([Tk.tok "b"], [Tk.tok "X"])], ∀ lab ∈ p.1,
        lab ∉ [Tk.tok "a"] ∧ lab ≠ Tk.tok "_") ∧
      resolveTk [Tk.tok "a"] (Tk.select [([Tk.tok "b"], [Tk.tok "X"])]) = [] :=
  ⟨by decide,
    select_no_matching_clause_empty [Tk.tok "a"] [([Tk.tok "b"], [Tk.tok "X"])]
      (by decide)⟩

/-- C9: a variant supplying more values than there are placeholders succeeds,
the placeholders are bound to the leading values in order, and the surplus
trailing values contribute nothing to the binding. -/
theorem surplus_values_ignored (params : List String) (tmpl subs : List Tk)
    (har : params.length ≤ subs.length) :
    expandVariant params tmpl subs = Except.ok (expandCore params tmpl subs) ∧
      params.zip subs = params.zip (subs.take params.length) := by
  exact ⟨by simp [expandVariant, Nat.not_lt.mpr har], zip_take_self params subs⟩

theorem surplus_values_ignored_witness :
    ["a", "b"].length ≤ [Tk.tok "c", Tk.tok "d", Tk.tok "e"].length ∧
      expandVariant ["a", "b"] [Tk.param "a"] [Tk.tok "c", Tk.tok "d", Tk.tok "e"] =
          Except.ok (expandCore ["a", "b"] [Tk.param "a"]
            [Tk.tok "c", Tk.tok "d", Tk.tok "e"]) ∧
        ["a", "b"].zip [Tk.tok "c", Tk.tok "d", Tk.tok "e"] =
          ["a", "b"].zip ([Tk.tok "c", Tk.tok "d", Tk.tok "e"].take ["a", "b"].length) :=
  ⟨by decide,
    surplus_values_ignored ["a", "b"] [Tk.param "a"] [Tk.tok "c", Tk.tok "d", Tk.tok "e"]
      (by decide)⟩

/-- C10: a request with zero variant declarations is accepted by the second
matcher of the source (lib.rs lines 232 to 236) and expands to nothing: no
copy of the template is emitted and no error is raised. -/
theorem zero_variants_accepted (params : List String) (tmpl : List Tk) :
    variantsRun params [] tmpl = Except.ok [] := rfl

end Variants
